import Mathlib

/-!
Shallow embedding of the `ndarray-linalg` fork's two core modules:

* `src/krylov/mod.rs` — the `Orthogonalizer` trait, the `Strategy` enum and
  the online QR driver `qr`.
* `src/lobpcg/eig.rs` — `TruncatedEig` (configuration + batch eigen-step)
  and `TruncatedEigIterator` (deflating sequence).

Scalars are modelled by `ℚ` (an exact stand-in for the generic real scalar
type `A::Real`); one-dimensional arrays by `List ℚ`; two-dimensional arrays
either by a list of rows (`qr`'s R factor) or by a structure recording the
row count and the list of columns (the eigensolver's matrices, which are
only ever concatenated column-wise).

The modified Gram-Schmidt implementation (`krylov/mgs.rs`) and the block
eigensolver (`lobpcg/lobpcg.rs`) are not part of the sources; where a claim
depends on them they are treated as abstract collaborators, and the few
facts needed about them are modelled from the specification and marked so.
-/

namespace NdLinalg

/-! ## Krylov module: `Orthogonalizer`, `Strategy`, `qr` -/

/-- The `Orthogonalizer` trait of `src/krylov/mod.rs`, as a record of
operations over an abstract state type `σ` (the trait object's mutable
state).  `append` models
`fn append(&mut self, a, rtol) -> Result<Array1, Array1>`: it returns the
successor state together with `Sum.inl coef` for `Ok(coef)` (vector
accepted, basis extended) or `Sum.inr coef` for `Err(coef)` (vector
rejected). -/
structure Orthogonalizer (σ : Type) where
  dim : σ → Nat
  len : σ → Nat
  append : σ → List ℚ → ℚ → σ × (List ℚ ⊕ List ℚ)
  get_q : σ → List (List ℚ)

/-- Default trait method `is_full`: `self.len() == self.dim()`. -/
def Orthogonalizer.is_full (o : Orthogonalizer σ) (s : σ) : Bool :=
  o.len s == o.dim s

/-- Default trait method `is_empty`: `self.len() == 0`. -/
def Orthogonalizer.is_empty (o : Orthogonalizer σ) (s : σ) : Bool :=
  o.len s == 0

/-- `Strategy` enum for linearly dependent vectors in the iterative QR
decomposition. -/
inductive Strategy where
  | Terminate
  | Skip
  | Full
deriving DecidableEq, Repr

/-- `r[(i, j)] = v`: update of one entry of a row-major matrix, as done by
the assembly loop of `qr`. -/
def setEntry (r : List (List ℚ)) (i j : Nat) (v : ℚ) : List (List ℚ) :=
  r.set i ((r.getD i []).set j v)

/-- Read entry `(i, j)` of a row-major matrix (0 outside the stored area). -/
def entry (r : List (List ℚ)) (i j : Nat) : ℚ :=
  (r.getD i []).getD j 0

/-- Body of the inner `for i in 0..n` loop of the R assembly
(`src/krylov/mod.rs`, lines 127-131): `if i < coefs[j].len() { r[(i, j)] =
coefs[j][i] }`. -/
def innerStep (coefs : List (List ℚ)) (j : Nat) (r : List (List ℚ))
    (i : Nat) : List (List ℚ) :=
  if i < (coefs.getD j []).length then
    setEntry r i j ((coefs.getD j []).getD i 0)
  else r

/-- Body of the outer `for j in 0..m` loop of the R assembly: run the inner
loop over all rows `0..n`. -/
def outerStep (n : Nat) (coefs : List (List ℚ)) (r : List (List ℚ))
    (j : Nat) : List (List ℚ) :=
  (List.range n).foldl (innerStep coefs j) r

/-- The R-assembly of `qr` (`src/krylov/mod.rs`, lines 125-132): start from
`Array2::zeros((n, m))` and, for `j in 0..m`, `i in 0..n`, set
`r[(i, j)] = coefs[j][i]` whenever `i < coefs[j].len()`. -/
def assembleR (n m : Nat) (coefs : List (List ℚ)) : List (List ℚ) :=
  (List.range m).foldl (outerStep n coefs)
    (List.replicate n (List.replicate m 0))

/-- Result of the consuming loop of `qr`: final orthogonalizer state, the
recorded coefficient vectors, and (ghost instrumentation) how many stream
vectors were passed to `append`. -/
structure LoopOut (σ : Type) where
  state : σ
  coefs : List (List ℚ)
  consumed : Nat
deriving Repr

/-- The `for a in iter` loop of `qr` (`src/krylov/mod.rs`, lines 113-122):
each vector is fed to `append`; `Ok` coefficients are recorded; on `Err`
the strategy decides between breaking, skipping, and recording anyway.
`consumed` counts the vectors passed to `append`. -/
def qrLoop (o : Orthogonalizer σ) (rtol : ℚ) (strategy : Strategy) :
    List (List ℚ) → σ → List (List ℚ) → LoopOut σ
  | [], s, coefs => ⟨s, coefs, 0⟩
  | a :: rest, s, coefs =>
    match o.append s a rtol with
    | (s', Sum.inl coef) =>
      let out := qrLoop o rtol strategy rest s' (coefs ++ [coef])
      ⟨out.state, out.coefs, out.consumed + 1⟩
    | (s', Sum.inr coef) =>
      match strategy with
      | Strategy.Terminate => ⟨s', coefs, 1⟩
      | Strategy.Skip =>
        let out := qrLoop o rtol strategy rest s' coefs
        ⟨out.state, out.coefs, out.consumed + 1⟩
      | Strategy.Full =>
        let out := qrLoop o rtol strategy rest s' (coefs ++ [coef])
        ⟨out.state, out.coefs, out.consumed + 1⟩

/-- `pub fn qr(iter, ortho, rtol, strategy) -> (Q, R)` of
`src/krylov/mod.rs`.  The `assert_eq!(ortho.len(), 0)` panic is modelled by
returning `none`. -/
def qr (iter : List (List ℚ)) (o : Orthogonalizer σ) (s : σ) (rtol : ℚ)
    (strategy : Strategy) : Option (List (List ℚ) × List (List ℚ)) :=
  if o.len s = 0 then
    let out := qrLoop o rtol strategy iter s []
    let n := o.len out.state
    let m := out.coefs.length
    some (o.get_q out.state, assembleR n m out.coefs)
  else
    none

/-- `true` iff running `append` sequentially from state `s` accepts every
vector of the list. -/
def acceptedRun (o : Orthogonalizer σ) (rtol : ℚ) : σ → List (List ℚ) → Bool
  | _, [] => true
  | s, a :: rest =>
    match o.append s a rtol with
    | (s', Sum.inl _) => acceptedRun o rtol s' rest
    | (_, Sum.inr _) => false

/-- State after feeding every vector of the list to `append` in order. -/
def runState (o : Orthogonalizer σ) (rtol : ℚ) : σ → List (List ℚ) → σ
  | s, [] => s
  | s, a :: rest => runState o rtol (o.append s a rtol).1 rest

/-- Coefficient vectors produced by `append` along a run, whether accepted
(`Ok`) or rejected (`Err`): the payload of every call, in order. -/
def appendOutputs (o : Orthogonalizer σ) (rtol : ℚ) :
    σ → List (List ℚ) → List (List ℚ)
  | _, [] => []
  | s, a :: rest =>
    match o.append s a rtol with
    | (s', Sum.inl c) => c :: appendOutputs o rtol s' rest
    | (s', Sum.inr c) => c :: appendOutputs o rtol s' rest

/-- Coefficient vectors of the accepted (`Ok`) calls only, in order. -/
def okOutputs (o : Orthogonalizer σ) (rtol : ℚ) :
    σ → List (List ℚ) → List (List ℚ)
  | _, [] => []
  | s, a :: rest =>
    match o.append s a rtol with
    | (s', Sum.inl c) => c :: okOutputs o rtol s' rest
    | (s', Sum.inr _) => okOutputs o rtol s' rest

/-- An `n×m` row-major matrix shape: `n` rows, each of length `m`. -/
def shape (n m : Nat) (r : List (List ℚ)) : Prop :=
  r.length = n ∧ ∀ k, k < n → ((r.getD k []).length = m)

/-- A small concrete `Orthogonalizer` instance over dimension 2, used by
witnesses: the state is the list of accepted vectors; a vector is accepted
exactly when it has a nonzero entry, and the reported coefficient vector is
the input with an acceptance flag appended. -/
def toyOrtho : Orthogonalizer (List (List ℚ)) where
  dim := fun _ => 2
  len := fun s => s.length
  append := fun s a _ =>
    if a.any (fun x => x ≠ 0) then (s ++ [a], Sum.inl (a ++ [1]))
    else (s, Sum.inr (a ++ [0]))
  get_q := fun s => s

/-! ## Lobpcg module: `TruncatedEig`, `TruncatedEigIterator` -/

/-- Modelled from the spec: `Order` — the extremal order, "Largest or
Smallest magnitude/value eigenpairs".  Its declaration lives in the absent
`lobpcg/lobpcg.rs`; only its two variants are used by `src/lobpcg/eig.rs`
and its test. -/
inductive Order where
  | Largest
  | Smallest
deriving DecidableEq, Repr

/-- A two-dimensional array, recorded as its row count (`len_of(Axis(0))`)
together with its list of columns (the eigensolver code only ever reads
the row count, clones matrices, and concatenates them column-wise). -/
structure Array2 where
  nrows : Nat
  cols : List (List ℚ)
deriving DecidableEq, Repr

/-- Number of columns of an `Array2`. -/
def Array2.ncols (m : Array2) : Nat := m.cols.length

/-- The column-wise concatenation built in `TruncatedEigIterator::next`
(`src/lobpcg/eig.rs`, lines 92-97): chain the columns of `c` with the
columns of `v` and `stack` them along `Axis(1)`. -/
def concatCols (c v : Array2) : Array2 :=
  ⟨c.nrows, c.cols ++ v.cols⟩

/-- Modelled from the spec: `EigResult` — the tagged outcome of the absent
block eigensolver `lobpcg/lobpcg.rs`: "{Ok(values, vectors, residualNorms),
Err(values, vectors, residualNorms, cause), NoResult(cause)}".  Causes are
kept abstract as strings. -/
inductive EigResult where
  | Ok : List ℚ → Array2 → List ℚ → EigResult
  | Err : List ℚ → Array2 → List ℚ → String → EigResult
  | NoResult : String → EigResult
deriving DecidableEq, Repr

/-- Modelled from the spec: the `BlockEigenStep` contract — "result arrays
are co-indexed and of equal length", one eigenpair per column of the
`batchSize`-wide block ("`once(batchSize)` ... converges a block of
eigenpairs", yielded as "this batch").  A result is well-formed for batch
size `num` when its values, vector columns and residual norms all number
`num`. -/
def EigResult.batchWF : EigResult → Nat → Prop
  | EigResult.Ok vals vecs norms, num =>
      vals.length = num ∧ vecs.ncols = num ∧ norms.length = num
  | EigResult.Err vals vecs norms _, num =>
      vals.length = num ∧ vecs.ncols = num ∧ norms.length = num
  | EigResult.NoResult _, _ => True

/-- `pub struct TruncatedEig` of `src/lobpcg/eig.rs`. -/
structure TruncatedEig where
  order : Order
  problem : Array2
  constraints : Option Array2
  precision : ℚ
  maxiter : Nat
deriving DecidableEq, Repr

/-- `TruncatedEig::new(problem, order)` (`src/lobpcg/eig.rs`, lines 21-29):
precision `1e-5`, maxiter `problem.len_of(Axis(0)) * 2`, no constraints. -/
def TruncatedEig.new (problem : Array2) (order : Order) : TruncatedEig :=
  { precision := 1 / 100000
    maxiter := problem.nrows * 2
    constraints := none
    order := order
    problem := problem }

/-- Builder `TruncatedEig::precision` (named apart from the field). -/
def TruncatedEig.withPrecision (self : TruncatedEig) (precision : ℚ) :
    TruncatedEig :=
  { self with precision := precision }

/-- Builder `TruncatedEig::maxiter` (named apart from the field). -/
def TruncatedEig.withMaxiter (self : TruncatedEig) (maxiter : Nat) :
    TruncatedEig :=
  { self with maxiter := maxiter }

/-- Builder `TruncatedEig::constraints` (named apart from the field). -/
def TruncatedEig.withConstraints (self : TruncatedEig) (constraints : Array2) :
    TruncatedEig :=
  { self with constraints := some constraints }

/-- `pub struct TruncatedEigIterator` of `src/lobpcg/eig.rs`. -/
structure TruncatedEigIterator where
  step_size : Nat
  eig : TruncatedEig
deriving DecidableEq, Repr

/-- `IntoIterator for TruncatedEig` (`src/lobpcg/eig.rs`, lines 58-68):
step size 1. -/
def TruncatedEig.intoIter (self : TruncatedEig) : TruncatedEigIterator :=
  { step_size := 1, eig := self }

/-- The convergence gate of `TruncatedEigIterator::next`
(`src/lobpcg/eig.rs`, lines 84-89): the `for r_norm in norms` loop returns
`None` early exactly when some residual norm exceeds the fixed acceptance
threshold `0.1` (`r_norm > NumCast::from(0.1)`). -/
def anyAboveThreshold (norms : List ℚ) : Bool :=
  norms.any (fun r_norm => (1 : ℚ) / 10 < r_norm)

/-- `TruncatedEigIterator::next` (`src/lobpcg/eig.rs`, lines 78-110).
`res` stands for the value of `self.eig.once(self.step_size)`: `once`
draws a fresh random initial block and delegates to the absent external
collaborator `lobpcg`, so its outcome enters the model as an input.  The
early `return None` of the `for r_norm in norms` check is the `List.any`
test; the function returns the successor state (`self` after the
`&mut self` call) together with the produced item, if any. -/
def TruncatedEigIterator.next (self : TruncatedEigIterator)
    (res : EigResult) : TruncatedEigIterator × Option (List ℚ × Array2) :=
  match res with
  | EigResult.Ok vals vecs norms | EigResult.Err vals vecs norms _ =>
    if anyAboveThreshold norms then
      (self, none)
    else
      let new_constraints :=
        match self.eig.constraints with
        | some constraints => concatCols constraints vecs
        | none => vecs
      ({ self with eig := { self.eig with constraints := some new_constraints } },
        some (vals, vecs))
  | EigResult.NoResult _ => (self, none)

/-- Column count of the optional constraint subspace (0 when absent). -/
def constraintCols : Option Array2 → Nat
  | none => 0
  | some c => c.ncols

/-! ### Concrete sample values used by witnesses -/

/-- A concrete 2×2 operator matrix. -/
def sampleProblem : Array2 := ⟨2, [[1, 0], [0, 1]]⟩

/-- A concrete 2×1 eigenvector block. -/
def sampleVecs : Array2 := ⟨2, [[0, 1]]⟩

/-- A concrete 2×1 constraint subspace. -/
def sampleCons : Array2 := ⟨2, [[1, 0]]⟩

/-- Iterator over `sampleProblem` with no constraints. -/
def sampleIt : TruncatedEigIterator :=
  (TruncatedEig.new sampleProblem Order.Largest).intoIter

/-- Iterator over `sampleProblem` with constraints `sampleCons`. -/
def sampleItC : TruncatedEigIterator :=
  ((TruncatedEig.new sampleProblem Order.Largest).withConstraints
    sampleCons).intoIter

/-! ## Theorems: row-major matrix helpers -/

/-- Reading back the updated position of `List.set`. -/
theorem getD_set_self {α : Type} (l : List α) (i : Nat) (a d : α)
    (h : i < l.length) : (l.set i a).getD i d = a := by
  simp [List.getD_eq_getElem?_getD, List.getElem?_set, h]

/-- Reading any other position of `List.set`. -/
theorem getD_set_ne {α : Type} (l : List α) {i k : Nat} (h : i ≠ k)
    (a d : α) : (l.set i a).getD k d = l.getD k d := by
  simp [List.getD_eq_getElem?_getD, List.getElem?_set_ne h]

/-- `getD` past the end of a list gives the default. -/
theorem getD_of_length_le {α : Type} (l : List α) {n : Nat}
    (h : l.length ≤ n) (d : α) : l.getD n d = d := by
  simp [List.getD_eq_getElem?_getD, List.getElem?_eq_none h]

/-- `setEntry` preserves the number of rows. -/
theorem length_setEntry (r : List (List ℚ)) (i j : Nat) (v : ℚ) :
    (setEntry r i j v).length = r.length := by
  simp [setEntry]

/-- `setEntry` preserves the length of every row. -/
theorem rowlen_setEntry (r : List (List ℚ)) (i j : Nat) (v : ℚ) (k : Nat) :
    ((setEntry r i j v).getD k []).length = (r.getD k []).length := by
  unfold setEntry
  by_cases hik : i = k
  · subst hik
    by_cases hi : i < r.length
    · rw [getD_set_self _ _ _ _ hi, List.length_set]
    · rw [List.set_eq_of_length_le (le_of_not_lt hi)]
  · rw [getD_set_ne _ hik]

/-- `setEntry` writes the targeted entry when it lies inside the matrix. -/
theorem entry_setEntry_self (r : List (List ℚ)) (i j : Nat) (v : ℚ)
    (hi : i < r.length) (hj : j < (r.getD i []).length) :
    entry (setEntry r i j v) i j = v := by
  unfold entry setEntry
  rw [getD_set_self _ _ _ _ hi]
  exact getD_set_self _ _ _ _ hj

/-- `setEntry` leaves every other entry unchanged. -/
theorem entry_setEntry_ne (r : List (List ℚ)) (i j i' j' : Nat) (v : ℚ)
    (h : i' ≠ i ∨ j' ≠ j) : entry (setEntry r i j v) i' j' = entry r i' j' := by
  unfold entry setEntry
  by_cases hii : i' = i
  · subst hii
    rcases h with h | h
    · exact absurd rfl h
    · by_cases hi : i' < r.length
      · rw [getD_set_self _ _ _ _ hi, getD_set_ne _ (fun e => h e.symm)]
      · rw [List.set_eq_of_length_le (le_of_not_lt hi)]
  · rw [getD_set_ne _ (fun e => hii e.symm)]

/-- The inner assembly step preserves the matrix shape. -/
theorem shape_innerStep (coefs : List (List ℚ)) (j : Nat)
    (r : List (List ℚ)) (i : Nat) {n m : Nat} (h : shape n m r) :
    shape n m (innerStep coefs j r i) := by
  unfold innerStep
  split
  · exact ⟨by rw [length_setEntry]; exact h.1,
      fun k hk => by rw [rowlen_setEntry]; exact h.2 k hk⟩
  · exact h

/-- A fold of inner assembly steps preserves the matrix shape. -/
theorem shape_foldl_innerStep (coefs : List (List ℚ)) (j : Nat)
    (L : List Nat) {n m : Nat} :
    ∀ r, shape n m r → shape n m (L.foldl (innerStep coefs j) r) := by
  induction L with
  | nil => exact fun r h => h
  | cons a L ih =>
    intro r h
    exact ih _ (shape_innerStep coefs j r a h)

/-- The outer assembly step preserves the matrix shape. -/
theorem shape_outerStep (n : Nat) (coefs : List (List ℚ))
    (r : List (List ℚ)) (j : Nat) {m : Nat} (h : shape n m r) :
    shape n m (outerStep n coefs r j) :=
  shape_foldl_innerStep coefs j (List.range n) r h

/-- A fold of outer assembly steps preserves the matrix shape. -/
theorem shape_foldl_outerStep (n : Nat) (coefs : List (List ℚ))
    (J : List Nat) {m : Nat} :
    ∀ r, shape n m r → shape n m (J.foldl (outerStep n coefs) r) := by
  induction J with
  | nil => exact fun r h => h
  | cons a J ih =>
    intro r h
    exact ih _ (shape_outerStep n coefs r a h)

/-- The all-zero starting matrix has shape `n×m` and zero entries. -/
theorem shape_replicate (n m : Nat) :
    shape n m (List.replicate n (List.replicate m (0 : ℚ))) := by
  refine ⟨List.length_replicate _ _, fun k hk => ?_⟩
  rw [List.getD_eq_getElem?_getD, List.getElem?_replicate_of_lt hk]
  simp

/-- Entries of the all-zero starting matrix. -/
theorem entry_replicate (n m i j : Nat) :
    entry (List.replicate n (List.replicate m (0 : ℚ))) i j = 0 := by
  unfold entry
  rcases Nat.lt_or_ge i n with hi | hi
  · rcases Nat.lt_or_ge j m with hj | hj
    · simp [List.getD_eq_getElem?_getD, List.getElem?_replicate, hi, hj]
    · simp [List.getD_eq_getElem?_getD, List.getElem?_replicate, hi,
        Nat.not_lt.2 hj]
  · simp [List.getD_eq_getElem?_getD, List.getElem?_replicate,
      Nat.not_lt.2 hi]

/-- Columns other than `j` are untouched by the inner loop for column `j`. -/
theorem entry_foldl_inner_other (coefs : List (List ℚ)) (j : Nat)
    (L : List Nat) :
    ∀ r i' j', j' ≠ j →
      entry (L.foldl (innerStep coefs j) r) i' j' = entry r i' j' := by
  induction L with
  | nil => intro r i' j' _; rfl
  | cons a L ih =>
    intro r i' j' h
    rw [List.foldl_cons, ih _ i' j' h]
    unfold innerStep
    split
    · exact entry_setEntry_ne r a j i' j' _ (Or.inr h)
    · rfl

/-- Running the inner loop for column `j` over a set of row indices sets
each visited in-range entry of column `j` to the matching coefficient and
leaves the rest alone. -/
theorem entry_foldl_inner_mem (coefs : List (List ℚ)) (j : Nat) {n m : Nat}
    (hj : j < m) (i : Nat) (hi : i < n) :
    ∀ (L : List Nat) (r : List (List ℚ)), shape n m r →
      entry (L.foldl (innerStep coefs j) r) i j =
        if i ∈ L ∧ i < (coefs.getD j []).length then
          (coefs.getD j []).getD i 0
        else entry r i j := by
  intro L
  induction L with
  | nil => intro r _; simp
  | cons a L ih =>
    intro r hr
    rw [List.foldl_cons, ih _ (shape_innerStep coefs j r a hr)]
    by_cases hil : i ∈ L ∧ i < (coefs.getD j []).length
    · rw [if_pos hil, if_pos ⟨List.mem_cons_of_mem a hil.1, hil.2⟩]
    · rw [if_neg hil]
      by_cases hia : i = a
      · subst hia
        by_cases hlen : i < (coefs.getD j []).length
        · rw [if_pos ⟨List.mem_cons_self i L, hlen⟩]
          unfold innerStep
          rw [if_pos hlen]
          exact entry_setEntry_self r i j _ (by rw [hr.1]; exact hi)
            (by rw [hr.2 i hi]; exact hj)
        · rw [if_neg (fun hc => hlen hc.2)]
          unfold innerStep
          rw [if_neg hlen]
      · have hstep : entry (innerStep coefs j r a) i j = entry r i j := by
          unfold innerStep
          split
          · exact entry_setEntry_ne r a j i j _ (Or.inl hia)
          · rfl
        rw [hstep, if_neg (fun hc =>
          (List.mem_cons.1 hc.1).elim (fun he => hia he)
            (fun hm => hil ⟨hm, hc.2⟩))]

/-- Running the outer loop over a set of column indices gives every visited
in-range column its final value and leaves the rest alone. -/
theorem entry_foldl_outer (n : Nat) (coefs : List (List ℚ)) {m : Nat}
    (i : Nat) (hi : i < n) (j : Nat) (hj : j < m) :
    ∀ (J : List Nat) (r : List (List ℚ)), shape n m r →
      entry (J.foldl (outerStep n coefs) r) i j =
        if j ∈ J then
          (if i < (coefs.getD j []).length then (coefs.getD j []).getD i 0
           else entry r i j)
        else entry r i j := by
  intro J
  induction J with
  | nil => intro r _; simp
  | cons a J ih =>
    intro r hr
    rw [List.foldl_cons, ih _ (shape_outerStep n coefs r a hr)]
    by_cases hja : j = a
    · subst hja
      have hstep : entry (outerStep n coefs r j) i j =
          if i < (coefs.getD j []).length then (coefs.getD j []).getD i 0
          else entry r i j := by
        unfold outerStep
        rw [entry_foldl_inner_mem coefs j hj i hi (List.range n) r hr]
        simp [List.mem_range, hi]
      by_cases hjJ : j ∈ J
      · rw [if_pos hjJ, if_pos (List.mem_cons_self j J), hstep]
        by_cases hlen : i < (coefs.getD j []).length
        · rw [if_pos hlen, if_pos hlen]
        · rw [if_neg hlen, if_neg hlen]
      · rw [if_neg hjJ, hstep, if_pos (List.mem_cons_self j J)]
    · have hstep : entry (outerStep n coefs r a) i j = entry r i j := by
        unfold outerStep
        exact entry_foldl_inner_other coefs a (List.range n) r i j hja
      rw [hstep]
      by_cases hjJ : j ∈ J
      · rw [if_pos hjJ, if_pos (List.mem_cons_of_mem a hjJ)]
      · rw [if_neg hjJ, if_neg (fun hc =>
          (List.mem_cons.1 hc).elim (fun he => hja he) hjJ)]

/-- The assembled R factor has `n` rows of length `m`. -/
theorem shape_assembleR (n m : Nat) (coefs : List (List ℚ)) :
    shape n m (assembleR n m coefs) :=
  shape_foldl_outerStep n coefs (List.range m) _ (shape_replicate n m)

/-- Entry characterization of the assembled R factor: inside the `n×m`
area, entry `(i, j)` is `coefs[j][i]` when that exists and `0` otherwise
(which `List.getD _ _ 0` captures in one expression). -/
theorem assembleR_entry (n m : Nat) (coefs : List (List ℚ)) (i j : Nat)
    (hi : i < n) (hj : j < m) :
    entry (assembleR n m coefs) i j = (coefs.getD j []).getD i 0 := by
  unfold assembleR
  rw [entry_foldl_outer n coefs i hi j hj (List.range m) _
    (shape_replicate n m)]
  rw [if_pos (List.mem_range.2 hj)]
  by_cases hlen : i < (coefs.getD j []).length
  · rw [if_pos hlen]
  · rw [if_neg hlen, entry_replicate,
      getD_of_length_le _ (le_of_not_lt hlen)]

/-! ## Theorems: eigensolver iterator -/

/-- Helper: whenever `next` produces no item, the iterator state (in
particular the constraint subspace) is returned untouched. -/
theorem next_none_state_aux (it : TruncatedEigIterator) (res : EigResult)
    (h : (it.next res).2 = none) : (it.next res).1 = it := by
  cases res with
  | NoResult c => rfl
  | Ok vals vecs norms =>
    cases hc : anyAboveThreshold norms with
    | true => simp [TruncatedEigIterator.next, hc]
    | false => simp [TruncatedEigIterator.next, hc] at h
  | Err vals vecs norms cause =>
    cases hc : anyAboveThreshold norms with
    | true => simp [TruncatedEigIterator.next, hc]
    | false => simp [TruncatedEigIterator.next, hc] at h

/-- C1: if the eigen-step result is `NoResult`, or any residual norm in the
batch exceeds the fixed acceptance threshold `0.1`, then
`TruncatedEigIterator::next` returns no item. -/
theorem next_none_on_failure (it : TruncatedEigIterator) (c : String)
    (vals : List ℚ) (vecs : Array2) (norms : List ℚ) (cause : String)
    (h : anyAboveThreshold norms = true) :
    (it.next (EigResult.NoResult c)).2 = none ∧
    (it.next (EigResult.Ok vals vecs norms)).2 = none ∧
    (it.next (EigResult.Err vals vecs norms cause)).2 = none := by
  refine ⟨rfl, ?_, ?_⟩ <;> simp [TruncatedEigIterator.next, h]

/-- Witness for C1 at a concrete iterator and batch. -/
theorem next_none_on_failure_witness :
    (sampleIt.next (EigResult.NoResult "degenerate")).2 = none ∧
    (sampleIt.next (EigResult.Ok [3] sampleVecs [1])).2 = none ∧
    (sampleIt.next (EigResult.Err [3] sampleVecs [1] "cap")).2 = none :=
  next_none_on_failure sampleIt "degenerate" [3] sampleVecs [1] "cap"
    (by norm_num [anyAboveThreshold])

/-- C2 counterexample: the iterator is not one-shot.  After a call that
returns no item (residual norm 1 > 0.1), a subsequent call whose eigen-step
result converges (residual norm 0) produces an item again. -/
theorem next_resumes_counterexample :
    (sampleIt.next (EigResult.Ok [3] sampleVecs [1])).2 = none ∧
    ((sampleIt.next (EigResult.Ok [3] sampleVecs [1])).1.next
        (EigResult.Ok [5] sampleVecs [0])).2 = some ([5], sampleVecs) := by
  have hg1 : anyAboveThreshold [1] = true := by norm_num [anyAboveThreshold]
  have hg0 : anyAboveThreshold [0] = false := by norm_num [anyAboveThreshold]
  constructor
  · simp [TruncatedEigIterator.next, hg1]
  · simp [TruncatedEigIterator.next, hg1, hg0, sampleIt,
      TruncatedEig.intoIter, TruncatedEig.new]

/-- C2 (amended): a call of `next` that returns no item leaves the iterator
state unchanged, so a subsequent call behaves exactly as if the failed call
had never happened — termination is not latched. -/
theorem next_no_latch (it : TruncatedEigIterator) (res res' : EigResult)
    (h : (it.next res).2 = none) :
    ((it.next res).1).next res' = it.next res' := by
  rw [next_none_state_aux it res h]

/-- Witness for the amended C2 at a concrete iterator. -/
theorem next_no_latch_witness :
    ((sampleIt.next (EigResult.NoResult "degenerate")).1).next
        (EigResult.Ok [5] sampleVecs [0])
      = sampleIt.next (EigResult.Ok [5] sampleVecs [0]) :=
  next_no_latch sampleIt (EigResult.NoResult "degenerate")
    (EigResult.Ok [5] sampleVecs [0]) rfl

/-- C10: whenever `next` returns no item (`NoResult`, or some residual norm
above 0.1), the `TruncatedEig` configuration — in particular its constraint
subspace — is exactly what it was before the call. -/
theorem next_none_preserves_config (it : TruncatedEigIterator)
    (res : EigResult) (h : (it.next res).2 = none) :
    (it.next res).1 = it :=
  next_none_state_aux it res h

/-- Witness for C10 at a concrete iterator and failed batch. -/
theorem next_none_preserves_config_witness :
    (sampleItC.next (EigResult.Ok [3] sampleVecs [1])).1 = sampleItC :=
  next_none_preserves_config sampleItC (EigResult.Ok [3] sampleVecs [1])
    (by
      have hg : anyAboveThreshold [1] = true := by
        norm_num [anyAboveThreshold]
      simp [TruncatedEigIterator.next, hg])

/-- C7: on a successful step (no residual norm above 0.1, result `Ok` or
`Err`), the constraint subspace stored back is the column-wise
concatenation of the previous constraints with the new eigenvectors, or
exactly the new eigenvectors when no prior constraints existed. -/
theorem next_success_constraint_update (it : TruncatedEigIterator)
    (vals : List ℚ) (vecs : Array2) (norms : List ℚ) (cause : String)
    (h : anyAboveThreshold norms = false) :
    (∀ C, it.eig.constraints = some C →
      (it.next (EigResult.Ok vals vecs norms)).1.eig.constraints
          = some (concatCols C vecs) ∧
      (it.next (EigResult.Err vals vecs norms cause)).1.eig.constraints
          = some (concatCols C vecs)) ∧
    (it.eig.constraints = none →
      (it.next (EigResult.Ok vals vecs norms)).1.eig.constraints
          = some vecs ∧
      (it.next (EigResult.Err vals vecs norms cause)).1.eig.constraints
          = some vecs) := by
  constructor
  · intro C hC
    constructor <;> simp [TruncatedEigIterator.next, h, hC]
  · intro hC
    constructor <;> simp [TruncatedEigIterator.next, h, hC]

/-- Witness for C7: concrete successful steps with and without prior
constraints. -/
theorem next_success_constraint_update_witness :
    (sampleItC.next (EigResult.Ok [5] sampleVecs [0])).1.eig.constraints
        = some (concatCols sampleCons sampleVecs) ∧
    (sampleIt.next (EigResult.Ok [5] sampleVecs [0])).1.eig.constraints
        = some sampleVecs :=
  ⟨((next_success_constraint_update sampleItC [5] sampleVecs [0] "c"
      (by norm_num [anyAboveThreshold])).1 sampleCons rfl).1,
   ((next_success_constraint_update sampleIt [5] sampleVecs [0] "c"
      (by norm_num [anyAboveThreshold])).2 rfl).1⟩

/-- C8: for any batch-well-formed eigen-step result, one `next` step never
shrinks the constraint subspace's column count, and a step that yields an
item grows it by exactly `step_size`. -/
theorem constraint_cols_monotone (it : TruncatedEigIterator)
    (res : EigResult) (hwf : res.batchWF it.step_size) :
    constraintCols it.eig.constraints
        ≤ constraintCols (it.next res).1.eig.constraints ∧
    (∀ p, (it.next res).2 = some p →
      constraintCols (it.next res).1.eig.constraints
          = constraintCols it.eig.constraints + it.step_size) := by
  cases res with
  | NoResult c =>
    refine ⟨le_refl _, fun p hp => ?_⟩
    simp [TruncatedEigIterator.next] at hp
  | Ok vals vecs norms =>
    cases hc : anyAboveThreshold norms with
    | true =>
      refine ⟨?_, fun p hp => ?_⟩
      · simp [TruncatedEigIterator.next, hc]
      · simp [TruncatedEigIterator.next, hc] at hp
    | false =>
      obtain ⟨hv, hn, hr⟩ := hwf
      simp only [Array2.ncols] at hn
      cases hCon : it.eig.constraints with
      | none =>
        have h1 : (it.next (EigResult.Ok vals vecs norms)).1.eig.constraints
            = some vecs := by
          simp [TruncatedEigIterator.next, hc, hCon]
        refine ⟨?_, fun p hp => ?_⟩ <;>
          · rw [h1]
            simp [constraintCols, hCon, Array2.ncols, hn]
      | some C =>
        have h1 : (it.next (EigResult.Ok vals vecs norms)).1.eig.constraints
            = some (concatCols C vecs) := by
          simp [TruncatedEigIterator.next, hc, hCon]
        refine ⟨?_, fun p hp => ?_⟩ <;>
          · rw [h1]
            simp [constraintCols, hCon, concatCols, Array2.ncols, hn]
  | Err vals vecs norms cause =>
    cases hc : anyAboveThreshold norms with
    | true =>
      refine ⟨?_, fun p hp => ?_⟩
      · simp [TruncatedEigIterator.next, hc]
      · simp [TruncatedEigIterator.next, hc] at hp
    | false =>
      obtain ⟨hv, hn, hr⟩ := hwf
      simp only [Array2.ncols] at hn
      cases hCon : it.eig.constraints with
      | none =>
        have h1 : (it.next (EigResult.Err vals vecs norms cause)).1.eig.constraints
            = some vecs := by
          simp [TruncatedEigIterator.next, hc, hCon]
        refine ⟨?_, fun p hp => ?_⟩ <;>
          · rw [h1]
            simp [constraintCols, hCon, Array2.ncols, hn]
      | some C =>
        have h1 : (it.next (EigResult.Err vals vecs norms cause)).1.eig.constraints
            = some (concatCols C vecs) := by
          simp [TruncatedEigIterator.next, hc, hCon]
        refine ⟨?_, fun p hp => ?_⟩ <;>
          · rw [h1]
            simp [constraintCols, hCon, concatCols, Array2.ncols, hn]

/-- Witness for C8 at a concrete iterator and well-formed batch. -/
theorem constraint_cols_monotone_witness :
    constraintCols sampleItC.eig.constraints
        ≤ constraintCols
            ((sampleItC.next (EigResult.Ok [5] sampleVecs [0])).1.eig.constraints) ∧
    (∀ p, (sampleItC.next (EigResult.Ok [5] sampleVecs [0])).2 = some p →
      constraintCols
            ((sampleItC.next (EigResult.Ok [5] sampleVecs [0])).1.eig.constraints)
          = constraintCols sampleItC.eig.constraints + sampleItC.step_size) :=
  constraint_cols_monotone sampleItC (EigResult.Ok [5] sampleVecs [0])
    ⟨rfl, rfl, rfl⟩

/-- C9: `TruncatedEig::new` fixes precision `1e-5`, iteration cap twice the
operator's row count, and no constraints; each builder method overrides
exactly its own field. -/
theorem truncatedEig_new_spec (problem : Array2) (order : Order) (p : ℚ)
    (mi : Nat) (C : Array2) :
    (TruncatedEig.new problem order).precision = 1 / 100000 ∧
    (TruncatedEig.new problem order).maxiter = problem.nrows * 2 ∧
    (TruncatedEig.new problem order).constraints = none ∧
    (TruncatedEig.new problem order).problem = problem ∧
    (TruncatedEig.new problem order).order = order ∧
    ∀ t : TruncatedEig,
      t.withPrecision p = { t with precision := p } ∧
      t.withMaxiter mi = { t with maxiter := mi } ∧
      t.withConstraints C = { t with constraints := some C } :=
  ⟨rfl, rfl, rfl, rfl, rfl, fun _ => ⟨rfl, rfl, rfl⟩⟩

/-! ## Theorems: QR driver -/

/-- Rows of a shaped matrix all have length `m`. -/
theorem shape_rows {n m : Nat} {r : List (List ℚ)} (h : shape n m r) :
    ∀ row ∈ r, row.length = m := by
  intro row hrow
  obtain ⟨k, hk, rfl⟩ := List.mem_iff_getElem.1 hrow
  have hlen := h.2 k (by rw [← h.1]; exact hk)
  rw [List.getD_eq_getElem?_getD, List.getElem?_eq_getElem hk] at hlen
  simpa using hlen

/-- Under `Strategy::Full`, the loop records the coefficient vector of
every `append` call, accepted or rejected, in order. -/
theorem qrLoop_full_coefs (o : Orthogonalizer σ) (rtol : ℚ) :
    ∀ (vs : List (List ℚ)) (s : σ) (coefs : List (List ℚ)),
      (qrLoop o rtol Strategy.Full vs s coefs).coefs
        = coefs ++ appendOutputs o rtol s vs := by
  intro vs
  induction vs with
  | nil => intro s coefs; simp [qrLoop, appendOutputs]
  | cons a vs ih =>
    intro s coefs
    rcases h : o.append s a rtol with ⟨s', c | c⟩
    · simp [qrLoop, appendOutputs, h, ih]
    · simp [qrLoop, appendOutputs, h, ih]

/-- One coefficient vector is produced per input vector. -/
theorem length_appendOutputs (o : Orthogonalizer σ) (rtol : ℚ) :
    ∀ (vs : List (List ℚ)) (s : σ),
      (appendOutputs o rtol s vs).length = vs.length := by
  intro vs
  induction vs with
  | nil => intro s; rfl
  | cons a vs ih =>
    intro s
    rcases h : o.append s a rtol with ⟨s', c | c⟩
    · simp [appendOutputs, h, ih]
    · simp [appendOutputs, h, ih]

/-- Under `Strategy::Skip`, the loop records exactly the accepted
coefficient vectors, in order. -/
theorem qrLoop_skip_coefs (o : Orthogonalizer σ) (rtol : ℚ) :
    ∀ (vs : List (List ℚ)) (s : σ) (coefs : List (List ℚ)),
      (qrLoop o rtol Strategy.Skip vs s coefs).coefs
        = coefs ++ okOutputs o rtol s vs := by
  intro vs
  induction vs with
  | nil => intro s coefs; simp [qrLoop, okOutputs]
  | cons a vs ih =>
    intro s coefs
    rcases h : o.append s a rtol with ⟨s', c | c⟩
    · simp [qrLoop, okOutputs, h, ih]
    · simp [qrLoop, okOutputs, h, ih]

/-- Under `Strategy::Full`, assuming the `append` contract (acceptance
grows the basis by one, rejection leaves it alone), the final basis size is
the starting size plus the number of accepted vectors. -/
theorem qrLoop_full_len (o : Orthogonalizer σ) (rtol : ℚ)
    (hacc : ∀ t a, (o.append t a rtol).2.isLeft = true →
      o.len (o.append t a rtol).1 = o.len t + 1)
    (hrej : ∀ t a, (o.append t a rtol).2.isRight = true →
      o.len (o.append t a rtol).1 = o.len t) :
    ∀ (vs : List (List ℚ)) (s : σ) (coefs : List (List ℚ)),
      o.len (qrLoop o rtol Strategy.Full vs s coefs).state
        = o.len s + (okOutputs o rtol s vs).length := by
  intro vs
  induction vs with
  | nil => intro s coefs; simp [qrLoop, okOutputs]
  | cons a vs ih =>
    intro s coefs
    rcases h : o.append s a rtol with ⟨s', c | c⟩
    · have hl : o.len s' = o.len s + 1 := by
        have := hacc s a (by rw [h]; rfl)
        rwa [h] at this
      simp [qrLoop, okOutputs, h, ih, hl]
      omega
    · have hl : o.len s' = o.len s := by
        have := hrej s a (by rw [h]; rfl)
        rwa [h] at this
      simp [qrLoop, okOutputs, h, ih, hl]

/-- Under `Strategy::Terminate`, once an accepted prefix is followed by a
rejected vector, the loop's outcome does not depend on anything after the
rejected vector, and exactly the prefix plus the rejected vector have been
passed to `append`. -/
theorem qrLoop_terminate_aux (o : Orthogonalizer σ) (rtol : ℚ) :
    ∀ (vs : List (List ℚ)) (s : σ) (coefs : List (List ℚ)) (a : List ℚ)
      (rest rest' : List (List ℚ)),
      acceptedRun o rtol s vs = true →
      (o.append (runState o rtol s vs) a rtol).2.isRight = true →
      qrLoop o rtol Strategy.Terminate (vs ++ a :: rest) s coefs
        = qrLoop o rtol Strategy.Terminate (vs ++ a :: rest') s coefs ∧
      (qrLoop o rtol Strategy.Terminate (vs ++ a :: rest) s coefs).consumed
        = vs.length + 1 := by
  intro vs
  induction vs with
  | nil =>
    intro s coefs a rest rest' hacc hrej
    simp only [runState] at hrej
    rcases h : o.append s a rtol with ⟨s', c | c⟩
    · rw [h] at hrej; simp at hrej
    · constructor
      · simp [qrLoop, h]
      · simp [qrLoop, h]
  | cons v vs ih =>
    intro s coefs a rest rest' hacc hrej
    rcases h : o.append s v rtol with ⟨s₁, c₁ | c₁⟩
    · have hacc' : acceptedRun o rtol s₁ vs = true := by
        simp only [acceptedRun, h] at hacc
        exact hacc
      have hrej' : (o.append (runState o rtol s₁ vs) a rtol).2.isRight
          = true := by
        simp only [runState, h] at hrej
        exact hrej
      obtain ⟨ihEq, ihCons⟩ := ih s₁ (coefs ++ [c₁]) a rest rest' hacc' hrej'
      have hstep : ∀ (tail : List (List ℚ)),
          qrLoop o rtol Strategy.Terminate (v :: tail) s coefs
            = ⟨(qrLoop o rtol Strategy.Terminate tail s₁ (coefs ++ [c₁])).state,
               (qrLoop o rtol Strategy.Terminate tail s₁ (coefs ++ [c₁])).coefs,
               (qrLoop o rtol Strategy.Terminate tail s₁
                 (coefs ++ [c₁])).consumed + 1⟩ := by
        intro tail
        simp [qrLoop, h]
      constructor
      · rw [List.cons_append, List.cons_append, hstep, hstep, ihEq]
      · rw [List.cons_append, hstep]
        simp [ihCons]
    · simp [acceptedRun, h] at hacc

/-- C4: under `Strategy::Terminate`, as soon as `append` rejects a vector,
`qr` stops consuming the stream: the result is independent of every vector
after the first rejected one, and the number of vectors passed to `append`
is exactly the accepted prefix plus the rejected vector. -/
theorem qr_terminate_stops (o : Orthogonalizer σ) (rtol : ℚ) (s : σ)
    (vs : List (List ℚ)) (a : List ℚ) (rest rest' : List (List ℚ))
    (hacc : acceptedRun o rtol s vs = true)
    (hrej : (o.append (runState o rtol s vs) a rtol).2.isRight = true) :
    qrLoop o rtol Strategy.Terminate (vs ++ a :: rest) s []
      = qrLoop o rtol Strategy.Terminate (vs ++ a :: rest') s [] ∧
    (qrLoop o rtol Strategy.Terminate (vs ++ a :: rest) s []).consumed
      = vs.length + 1 ∧
    qr (vs ++ a :: rest) o s rtol Strategy.Terminate
      = qr (vs ++ a :: rest') o s rtol Strategy.Terminate := by
  obtain ⟨hEq, hCons⟩ :=
    qrLoop_terminate_aux o rtol vs s [] a rest rest' hacc hrej
  refine ⟨hEq, hCons, ?_⟩
  unfold qr
  rw [hEq]

/-- C6: `qr` aborts (the `assert_eq!(ortho.len(), 0)` panic) exactly when
the supplied orthogonalizer is non-empty; an empty orthogonalizer always
gets past the assertion to a result. -/
theorem qr_empty_precondition (o : Orthogonalizer σ) (s : σ)
    (iter : List (List ℚ)) (rtol : ℚ) (strategy : Strategy) :
    (o.len s ≠ 0 → qr iter o s rtol strategy = none) ∧
    (o.len s = 0 → ∃ out, qr iter o s rtol strategy = some out) := by
  constructor
  · intro h
    simp [qr, h]
  · intro h
    refine ⟨(o.get_q (qrLoop o rtol strategy iter s []).state,
      assembleR (o.len (qrLoop o rtol strategy iter s []).state)
        (qrLoop o rtol strategy iter s []).coefs.length
        (qrLoop o rtol strategy iter s []).coefs), ?_⟩
    simp [qr, h]

/-- C3: for every stream, `qr` returns `R = assembleR n m coefs` with
`n` the final basis size and `m` the number of recorded coefficient
vectors; `R` is an `n×m` matrix whose entry `(i, j)` is `coefs[j][i]` when
`i < coefs[j].len()` and `0` otherwise, and an empty stream yields a
0-column `R`. -/
theorem qr_R_assembly (o : Orthogonalizer σ) (s : σ) (iter : List (List ℚ))
    (rtol : ℚ) (strategy : Strategy) (hs : o.len s = 0)
    (out : LoopOut σ) (hout : qrLoop o rtol strategy iter s [] = out) :
    qr iter o s rtol strategy
      = some (o.get_q out.state,
          assembleR (o.len out.state) out.coefs.length out.coefs) ∧
    (assembleR (o.len out.state) out.coefs.length out.coefs).length
      = o.len out.state ∧
    (∀ row ∈ assembleR (o.len out.state) out.coefs.length out.coefs,
      row.length = out.coefs.length) ∧
    (∀ i j, i < o.len out.state → j < out.coefs.length →
      (i < (out.coefs.getD j []).length →
        entry (assembleR (o.len out.state) out.coefs.length out.coefs) i j
          = (out.coefs.getD j []).getD i 0) ∧
      ((out.coefs.getD j []).length ≤ i →
        entry (assembleR (o.len out.state) out.coefs.length out.coefs) i j
          = 0)) ∧
    (iter = [] → out.coefs.length = 0) := by
  refine ⟨?_, (shape_assembleR _ _ _).1, shape_rows (shape_assembleR _ _ _),
    ?_, ?_⟩
  · simp [qr, hs, hout]
  · intro i j hi hj
    constructor
    · intro _
      exact assembleR_entry _ _ _ _ _ hi hj
    · intro hge
      rw [assembleR_entry _ _ _ _ _ hi hj, getD_of_length_le _ hge]
  · intro hiter
    subst hiter
    rw [← hout]
    rfl

/-- C5: under `Strategy::Full`, the recorded coefficient vectors are those
of every `append` call (so R has one column per input vector) while the
basis only grows by the accepted vectors; under `Strategy::Skip`, the
recorded coefficient vectors — and hence the columns of R — are those of
the accepted vectors only. -/
theorem qr_full_skip_columns (o : Orthogonalizer σ) (rtol : ℚ) (s : σ)
    (vs : List (List ℚ)) (hs : o.len s = 0)
    (hacc : ∀ t a, (o.append t a rtol).2.isLeft = true →
      o.len (o.append t a rtol).1 = o.len t + 1)
    (hrej : ∀ t a, (o.append t a rtol).2.isRight = true →
      o.len (o.append t a rtol).1 = o.len t) :
    (qrLoop o rtol Strategy.Full vs s []).coefs
      = appendOutputs o rtol s vs ∧
    (qrLoop o rtol Strategy.Full vs s []).coefs.length = vs.length ∧
    o.len (qrLoop o rtol Strategy.Full vs s []).state
      = (okOutputs o rtol s vs).length ∧
    (qrLoop o rtol Strategy.Skip vs s []).coefs = okOutputs o rtol s vs ∧
    (∀ q r, qr vs o s rtol Strategy.Full = some (q, r) →
      ∀ row ∈ r, row.length = vs.length) ∧
    (∀ q r, qr vs o s rtol Strategy.Skip = some (q, r) →
      ∀ row ∈ r, row.length = (okOutputs o rtol s vs).length) := by
  have hFull : (qrLoop o rtol Strategy.Full vs s []).coefs
      = appendOutputs o rtol s vs := by
    rw [qrLoop_full_coefs]
    rfl
  have hFullLen : (qrLoop o rtol Strategy.Full vs s []).coefs.length
      = vs.length := by
    rw [hFull, length_appendOutputs]
  have hSkip : (qrLoop o rtol Strategy.Skip vs s []).coefs
      = okOutputs o rtol s vs := by
    rw [qrLoop_skip_coefs]
    rfl
  have hBasis : o.len (qrLoop o rtol Strategy.Full vs s []).state
      = (okOutputs o rtol s vs).length := by
    rw [qrLoop_full_len o rtol hacc hrej, hs]
    omega
  refine ⟨hFull, hFullLen, hBasis, hSkip, ?_, ?_⟩
  · intro q r hqr
    simp [qr, hs] at hqr
    rw [← hqr.2]
    intro row hrow
    rw [shape_rows (shape_assembleR _ _ _) row hrow]
    exact hFullLen
  · intro q r hqr
    simp [qr, hs] at hqr
    rw [← hqr.2]
    intro row hrow
    rw [shape_rows (shape_assembleR _ _ _) row hrow, hSkip]

/-- Witness for C4: the toy orthogonalizer accepts `[1, 0]`, rejects
`[0, 0]`, and the run is insensitive to the vector `[0, 1]` behind the
rejected one. -/
theorem qr_terminate_stops_witness :
    qrLoop toyOrtho 0 Strategy.Terminate
        ([[1, 0]] ++ [0, 0] :: [[0, 1]]) [] []
      = qrLoop toyOrtho 0 Strategy.Terminate ([[1, 0]] ++ [0, 0] :: []) [] [] ∧
    (qrLoop toyOrtho 0 Strategy.Terminate
        ([[1, 0]] ++ [0, 0] :: [[0, 1]]) [] []).consumed
      = [[1, 0]].length + 1 ∧
    qr ([[1, 0]] ++ [0, 0] :: [[0, 1]]) toyOrtho [] 0 Strategy.Terminate
      = qr ([[1, 0]] ++ [0, 0] :: []) toyOrtho [] 0 Strategy.Terminate :=
  qr_terminate_stops toyOrtho 0 [] [[1, 0]] [0, 0] [[0, 1]] []
    (by decide) (by decide)

/-- Witness for C6: `qr` aborts on a non-empty toy orthogonalizer and
returns a result on an empty one. -/
theorem qr_empty_precondition_witness :
    qr [[1, 0]] toyOrtho [[1, 0]] 0 Strategy.Skip = none ∧
    ∃ out, qr [[1, 0]] toyOrtho [] 0 Strategy.Skip = some out :=
  ⟨(qr_empty_precondition toyOrtho [[1, 0]] [[1, 0]] 0 Strategy.Skip).1
      (by decide),
   (qr_empty_precondition toyOrtho [] [[1, 0]] 0 Strategy.Skip).2 rfl⟩

/-- Witness for C3: concrete run of the toy orthogonalizer over
`[[1,0], [0,0]]` under `Skip` (one accepted, one rejected vector). -/
theorem qr_R_assembly_witness :
    qr [[1, 0], [0, 0]] toyOrtho [] 0 Strategy.Skip
      = some ([[1, 0]], assembleR 1 1 [[1, 0, 1]]) ∧
    (assembleR 1 1 [[1, 0, 1]]).length = 1 ∧
    (∀ row ∈ assembleR 1 1 [[1, 0, 1]], row.length = 1) ∧
    (∀ i j, i < 1 → j < 1 →
      (i < (([[1, 0, 1]] : List (List ℚ)).getD j []).length →
        entry (assembleR 1 1 [[1, 0, 1]]) i j
          = (([[1, 0, 1]] : List (List ℚ)).getD j []).getD i 0) ∧
      ((([[1, 0, 1]] : List (List ℚ)).getD j []).length ≤ i →
        entry (assembleR 1 1 [[1, 0, 1]]) i j = 0)) ∧
    ([[1, 0], [0, 0]] = ([] : List (List ℚ)) →
      ([[1, 0, 1]] : List (List ℚ)).length = 0) :=
  qr_R_assembly toyOrtho [] [[1, 0], [0, 0]] 0 Strategy.Skip rfl
    ⟨[[1, 0]], [[1, 0, 1]], 2⟩ rfl

/-- Witness for C5: concrete run of the toy orthogonalizer over three
vectors of which the middle one is rejected. -/
theorem qr_full_skip_columns_witness :
    (qrLoop toyOrtho 0 Strategy.Full [[1, 0], [0, 0], [0, 1]] [] []).coefs
      = appendOutputs toyOrtho 0 [] [[1, 0], [0, 0], [0, 1]] ∧
    (qrLoop toyOrtho 0 Strategy.Full
        [[1, 0], [0, 0], [0, 1]] [] []).coefs.length = 3 ∧
    toyOrtho.len
        (qrLoop toyOrtho 0 Strategy.Full [[1, 0], [0, 0], [0, 1]] [] []).state
      = (okOutputs toyOrtho 0 [] [[1, 0], [0, 0], [0, 1]]).length ∧
    (qrLoop toyOrtho 0 Strategy.Skip [[1, 0], [0, 0], [0, 1]] [] []).coefs
      = okOutputs toyOrtho 0 [] [[1, 0], [0, 0], [0, 1]] ∧
    (∀ q r, qr [[1, 0], [0, 0], [0, 1]] toyOrtho [] 0 Strategy.Full
        = some (q, r) → ∀ row ∈ r, row.length = 3) ∧
    (∀ q r, qr [[1, 0], [0, 0], [0, 1]] toyOrtho [] 0 Strategy.Skip
        = some (q, r) →
      ∀ row ∈ r,
        row.length = (okOutputs toyOrtho 0 [] [[1, 0], [0, 0], [0, 1]]).length) :=
  qr_full_skip_columns toyOrtho 0 [] [[1, 0], [0, 0], [0, 1]] rfl
    (by
      intro t a h
      by_cases hp : ∃ x ∈ a, x ≠ 0
      · simp [toyOrtho, hp]
      · simp [toyOrtho, hp] at h)
    (by
      intro t a h
      by_cases hp : ∃ x ∈ a, x ≠ 0
      · simp [toyOrtho, hp] at h
      · simp [toyOrtho, hp])

end NdLinalg
